import Mathlib

/-!
Shallow embedding of the dreem read-to-bit-vector decoder
(`src/dreem/bit_vector.py`) and mutation-histogram aggregator
(`src/dreem/mutation_histogram.py`), with theorems checking the
specification's claims against the code.

Conventions: machine integers are `Nat`/`Int`; Python dicts are
insertion-ordered association lists; numpy float division is modelled over
`ℚ` with `none` standing for the non-finite results (NaN/inf) of a zero
denominator; fallible code returns `Option`/`Except`.
-/

namespace RnaMap

-- Python dict embedding -------------------------------------------------------

/-- Bit vectors: Python dicts from 1-based reference position to a single
classification character, modelled as insertion-ordered association lists
with unique keys. -/
abbrev BV := List (Nat × Char)

/-- Python `d[k]` lookup, `none` when the key is absent. -/
def dget? (d : BV) (k : Nat) : Option Char :=
  (d.find? (fun p => p.1 == k)).map (fun p => p.2)

/-- Lookup with a default for absent keys (the source only reads keys that
are present). -/
def dgetD (d : BV) (k : Nat) (v : Char) : Char := (dget? d k).getD v

/-- Python `k in d`. -/
def dmem (d : BV) (k : Nat) : Bool := d.any (fun p => p.1 == k)

/-- Python `d[k] = v`: overwrite the existing binding in place, otherwise
append (Python dicts preserve insertion order). -/
def dset (d : BV) (k : Nat) (v : Char) : BV :=
  if dmem d k then d.map (fun p => if p.1 == k then (k, v) else p)
  else d ++ [(k, v)]

/-- The keys of the dict, in insertion order. -/
def dkeys (d : BV) : List Nat := d.map (fun p => p.1)

-- CIGAR decoder ---------------------------------------------------------------

def isDigitChar (c : Char) : Bool := '0' ≤ c && c ≤ '9'

def isUpperChar (c : Char) : Bool := 'A' ≤ c && c ≤ 'Z'

/-- Embedding of `re.findall(r"(\d+)([A-Z]{1})", s)`
(`BitVectorIterator._parse_cigar`, bit_vector.py 158-159): the greedy `\d+`
and the single-character class mean a token is a maximal digit run
immediately followed by an uppercase letter; a failed match advances one
position, so every character not part of such a token is silently skipped
and no failure is ever reported.  The first argument carries the digit run
seen so far. -/
def scanCigar : List Char → List Char → List (List Char × Char)
  | _, [] => []
  | ds, c :: rest =>
    if isDigitChar c then scanCigar (ds ++ [c]) rest
    else if isUpperChar c ∧ ds ≠ [] then (ds, c) :: scanCigar [] rest
    else scanCigar [] rest

def parseCigarTokens (s : String) : List (List Char × Char) := scanCigar [] s.toList

/-- Python `int` applied to the matched digit group. -/
def digitsToNat (l : List Char) : Nat := l.foldl (fun n c => n * 10 + (c.toNat - 48)) 0

-- AmbiguityResolver -----------------------------------------------------------

/-- Python slice `s[a : b]`: a negative index in `[-n, -1]` wraps around and
counts from the end of the sequence; indices past either end are clamped. -/
def pySlice (s : List Char) (a b : Int) : List Char :=
  let n : Int := s.length
  let a2 := if a < 0 then max (n + a) 0 else min a n
  let b2 := if b < 0 then max (n + b) 0 else min b n
  if a2 < b2 then (s.drop a2.toNat).take (b2 - a2).toNat else []

/-- Slice as the claim words it: out-of-range window slices are empty, i.e.
the requested index range is clamped to the sequence bounds and nothing
wraps around. -/
def claimSlice (s : List Char) (a b : Int) : List Char :=
  let n : Int := s.length
  let a2 := min (max a 0) n
  let b2 := min (max b 0) n
  if a2 < b2 then (s.drop a2.toNat).take (b2 - a2).toNat else []

/-- `BitVectorIterator.__calc_ambig_reads` (bit_vector.py 161-181): `i` is
the (1-based) final deleted position, `length` the deletion length, `W` the
surrounding-window size `num_of_surbases`.  Slices follow Python semantics
(`pySlice`). -/
def calcAmbigReads (W : Nat) (refSeq : List Char) (i length : Nat) : Bool :=
  let iZ : Int := (i : Int)
  let lZ : Int := (length : Int)
  let orig_del_start : Int := iZ - lZ + 1
  let orig_sur_start : Int := orig_del_start - (W : Int)
  let orig_sur_end : Int := iZ + (W : Int)
  let orig_sur_seq :=
    pySlice refSeq (orig_sur_start - 1) (orig_del_start - 1) ++ pySlice refSeq iZ orig_sur_end
  (List.range (2 * length + 1)).any (fun t =>
    let new_del_end : Int := iZ - lZ + (t : Int)
    if new_del_end = iZ then false
    else
      let new_del_start := new_del_end - lZ + 1
      let sur_seq :=
        pySlice refSeq (orig_sur_start - 1) (new_del_start - 1) ++
          pySlice refSeq new_del_end orig_sur_end
      sur_seq == orig_sur_seq)

/-- The ambiguity check as the claim words it: identical to
`calcAmbigReads` except that out-of-range window slices are treated as
empty (`claimSlice`) instead of following Python's wrap-around slicing. -/
def claimAmbigCheck (W : Nat) (refSeq : List Char) (i length : Nat) : Bool :=
  let iZ : Int := (i : Int)
  let lZ : Int := (length : Int)
  let orig_del_start : Int := iZ - lZ + 1
  let orig_sur_start : Int := orig_del_start - (W : Int)
  let orig_sur_end : Int := iZ + (W : Int)
  let orig_sur_seq :=
    claimSlice refSeq (orig_sur_start - 1) (orig_del_start - 1) ++
      claimSlice refSeq iZ orig_sur_end
  (List.range (2 * length + 1)).any (fun t =>
    let new_del_end : Int := iZ - lZ + (t : Int)
    if new_del_end = iZ then false
    else
      let new_del_start := new_del_end - lZ + 1
      let sur_seq :=
        claimSlice refSeq (orig_sur_start - 1) (new_del_start - 1) ++
          claimSlice refSeq new_del_end orig_sur_end
      sur_seq == orig_sur_seq)

-- ReadClassifier --------------------------------------------------------------

/-- An aligned SAM read as consumed by the bit-vector iterator (fields as
used in bit_vector.py; `pos` is the 1-based leftmost aligned reference
coordinate). -/
structure AlignedRead where
  qname : String
  rname : String
  pos : Nat
  seq : List Char
  qual : List Char
  cigar : String
  mapq : Nat
deriving DecidableEq, BEq

/-- Value written for one base of a Match/Mismatch run (bit_vector.py
117-126); `i` is 1-based so the reference is indexed at `i - 1`.  Out-of-
range base/quality lookups raise IndexError in the source and are given a
placeholder here. -/
def mValue (phred : Char → Nat) (cutoff : Nat) (refSeq readSeq qual : List Char)
    (i j : Nat) : Char :=
  if phred (qual.getD j ' ') > cutoff then
    (if readSeq.getD j ' ' ≠ refSeq.getD (i - 1) ' ' then readSeq.getD j ' ' else '0')
  else '?'

/-- The inner loop of a Match/Mismatch run: classifies `n` bases starting
at reference position `i` and read position `j`. -/
def mRun (phred : Char → Nat) (cutoff : Nat) (refSeq readSeq qual : List Char) :
    Nat → Nat → Nat → BV → BV × Nat × Nat
  | 0, i, j, bv => (bv, i, j)
  | n + 1, i, j, bv =>
    mRun phred cutoff refSeq readSeq qual n (i + 1) (j + 1)
      (dset bv i (mValue phred cutoff refSeq readSeq qual i j))

/-- Marks `n` consecutive reference positions starting at `i` with `c` (the
deletion-prefix loop and the trailing soft-clip loop); returns the updated
dict and reference index. -/
def markRun (c : Char) : Nat → Nat → BV → BV × Nat
  | 0, i, bv => (bv, i)
  | n + 1, i, bv => markRun c n (i + 1) (dset bv i c)

/-- `BitVectorIterator.__convert_read_to_bit_vector` (bit_vector.py
105-149), one CIGAR operation per step.  `M` classifies each base by
quality and comparison; `D` marks `length - 1` positions ambiguous and asks
`calcAmbigReads` about the final deleted position; `I` advances only the
read index; a trailing `S` marks `length` positions missing; an unknown
operation aborts and returns an empty map. -/
def convertLoop (phred : Char → Nat) (cutoff W : Nat) (refSeq readSeq qual : List Char) :
    List (Nat × Char) → Nat → Nat → BV → BV
  | [], _, _, bv => bv
  | (length, desc) :: rest, i, j, bv =>
    if desc = 'M' then
      let r := mRun phred cutoff refSeq readSeq qual length i j bv
      convertLoop phred cutoff W refSeq readSeq qual rest r.2.1 r.2.2 r.1
    else if desc = 'D' then
      let r := markRun '?' (length - 1) i bv
      let bv2 := dset r.1 r.2 (if calcAmbigReads W refSeq r.2 length then '?' else '1')
      convertLoop phred cutoff W refSeq readSeq qual rest (r.2 + 1) j bv2
    else if desc = 'I' then
      convertLoop phred cutoff W refSeq readSeq qual rest i (j + length) bv
    else if desc = 'S' then
      if rest = [] then
        let r := markRun '*' length i bv
        convertLoop phred cutoff W refSeq readSeq qual rest r.2 (j + length) r.1
      else
        convertLoop phred cutoff W refSeq readSeq qual rest i (j + length) bv
    else []

/-- The decoded CIGAR operations of a read, with the digit groups already
converted by `int` (hoisted out of the loop body, where the source converts
each `op[0]`). -/
def readOps (read : AlignedRead) : List (Nat × Char) :=
  (parseCigarTokens read.cigar).map (fun p => (digitsToNat p.1, p.2))

def convertReadToBitVector (phred : Char → Nat) (cutoff W : Nat) (refSeq : List Char)
    (read : AlignedRead) : BV :=
  convertLoop phred cutoff W refSeq read.seq read.qual (readOps read) read.pos 0 []

/-- The reference span consumed by a CIGAR operation list, mirroring how
`convertLoop` advances `i`: `M` runs by their length, `D` runs by
`(length - 1) + 1`, a trailing `S` by its length; an unknown operation
empties the result, so any bound holds from there on. -/
def refSpan : List (Nat × Char) → Nat
  | [] => 0
  | (length, desc) :: rest =>
    if desc = 'M' then length + refSpan rest
    else if desc = 'D' then ((length - 1) + 1) + refSpan rest
    else if desc = 'I' then refSpan rest
    else if desc = 'S' then (if rest = [] then length else 0) + refSpan rest
    else 0

/-- The CIGAR operations the classifier recognizes. -/
def knownOp (c : Char) : Bool := c == 'M' || c == 'D' || c == 'I' || c == 'S'

/-- Standard Sanger phred encoding (score = ASCII code - 33), the content
of the bundled `resources/phred_ascii.txt` lookup table loaded by
`parse_phred_qscore_file`; the table is an external input of the
classifier and is passed as a parameter throughout. -/
def phredStd (c : Char) : Nat := c.toNat - 33

-- PairMerger ------------------------------------------------------------------

def isBase (c : Char) : Bool := c == 'A' || c == 'C' || c == 'G' || c == 'T'

/-- The symbols a classified bit vector can contain: no-mutation `0`,
deletion `1`, ambiguous `?`, missing `*`, or a mutated base. -/
def validBit (c : Char) : Bool := c == '0' || c == '1' || c == '?' || c == '*' || isBase c

/-- Resolution of two distinct bits at one position, following the ordered
branches of `__merge_paired_bit_vectors` (bit_vector.py 189-218); `none` is
the final unhandled branch, which logs a warning and keeps mate 1's value. -/
def mergeBits (b1 b2 : Char) : Option Char :=
  if b1 = '0' ∨ b2 = '0' then some '0'
  else if b1 = '?' ∨ b2 = '?' then some (if b1 = '?' then b2 else b1)
  else if b1 = '*' ∨ b2 = '*' then some (if b1 = '*' then b2 else b1)
  else if isBase b1 ∧ isBase b2 then some '?'
  else if (b1 = '1' ∧ isBase b2) ∨ (isBase b1 ∧ b2 = '1') then some '?'
  else none

/-- The loop of `__merge_paired_bit_vectors` over mate 2's items (the
source consults `bit_vector_1[pos]`, embedded via `dgetD bv1`); the Bool
records whether the unhandled-combination warning was ever emitted. -/
def mergeLoop (bv1 : BV) : List (Nat × Char) → BV → Bool → BV × Bool
  | [], bv, w => (bv, w)
  | (pos, bit) :: rest, bv, w =>
    match dget? bv pos with
    | none => mergeLoop bv1 rest (dset bv pos bit) w
    | some cur =>
      if bit = cur then mergeLoop bv1 rest bv w
      else
        match mergeBits (dgetD bv1 pos ' ') bit with
        | some v => mergeLoop bv1 rest (dset bv pos v) w
        | none => mergeLoop bv1 rest bv true

/-- `__merge_paired_bit_vectors` (bit_vector.py 183-219): starts from a
copy of mate 1's dict and folds in mate 2's items. -/
def mergePairedBitVectors (bv1 bv2 : BV) : BV × Bool := mergeLoop bv1 bv2 bv1 false

-- Pipeline reference check ----------------------------------------------------

/-- A Python runtime value as far as the reference-membership test in
`__next__` is concerned: the dict keys are strings, the tested value is an
AlignedRead object. -/
inductive PyVal where
  | pystr (s : String)
  | pyread (r : AlignedRead)

/-- Python `==` between such values: values of unrelated types compare
unequal (a dataclass instance never equals a str). -/
def pyEq : PyVal → PyVal → Bool
  | .pystr a, .pystr b => a == b
  | .pyread a, .pyread b => a == b
  | _, _ => false

/-- The loaded reference set: name to sequence. -/
abbrev RefSeqs := List (String × List Char)

/-- Python `x in d` for the reference dict: membership among the keys under
`==`. -/
def refSeqsContains (refs : RefSeqs) (v : PyVal) : Bool :=
  refs.any (fun kv => pyEq (.pystr kv.1) v)

/-- The reference check at the top of `BitVectorIterator.__next__`
(bit_vector.py 88-93): the loop raises ValueError at the first read for
which `read not in self.__ref_seqs`.  Note the tested value is the read
object itself, not `read.rname`. -/
def nextRefCheck (refs : RefSeqs) (reads : List AlignedRead) : Except String Unit :=
  match reads.find? (fun r => ! refSeqsContains refs (.pyread r)) with
  | some r =>
    .error ("read " ++ r.qname ++ " aligned to " ++ r.rname ++
      " which is not in the reference fasta")
  | none => .ok ()

-- MutationHistogram -----------------------------------------------------------

/-- `MutationHistogram` state (mutation_histogram.py 14-41); `structure_`
and `end_` stand for the source's `structure` and `end`, which are Lean
keywords.  The fixed-key `skips` dict is three counters. -/
structure MutationHistogram where
  name : String
  sequence : String
  structure_ : Option String
  data_type : String
  num_reads : Nat
  num_aligned : Nat
  skips_low_mapq : Nat
  skips_short_read : Nat
  skips_too_many_muts : Nat
  num_of_mutations : List Nat
  mut_bases : List Nat
  info_bases : List Nat
  del_bases : List Nat
  ins_bases : List Nat
  cov_bases : List Nat
  mod_bases_A : List Nat
  mod_bases_C : List Nat
  mod_bases_G : List Nat
  mod_bases_T : List Nat
  start : Nat
  end_ : Nat
deriving DecidableEq

/-- `MutationHistogram.__init__` with the default start/end (the pipeline
constructs histograms as `MutationHistogram(name, seq, "DMS", 1, len(seq))`,
which coincides with the defaults). -/
def mhNew (name sequence data_type : String) : MutationHistogram :=
  let n := sequence.length
  { name := name, sequence := sequence, structure_ := none, data_type := data_type
    num_reads := 0, num_aligned := 0
    skips_low_mapq := 0, skips_short_read := 0, skips_too_many_muts := 0
    num_of_mutations := List.replicate (n + 1) 0
    mut_bases := List.replicate (n + 1) 0
    info_bases := List.replicate (n + 1) 0
    del_bases := List.replicate (n + 1) 0
    ins_bases := List.replicate (n + 1) 0
    cov_bases := List.replicate (n + 1) 0
    mod_bases_A := List.replicate (n + 1) 0
    mod_bases_C := List.replicate (n + 1) 0
    mod_bases_G := List.replicate (n + 1) 0
    mod_bases_T := List.replicate (n + 1) 0
    start := 1, end_ := n }

/-- Python `for ii in range(len(other)): self[ii] += other[ii]` and the
equal-shape numpy `+=`; an `other` longer than `self` raises IndexError in
the source and is not modelled (the claims only merge equal shapes). -/
def loopAdd : List Nat → List Nat → List Nat
  | a, [] => a
  | [], _ :: _ => []
  | x :: a, y :: b => (x + y) :: loopAdd a b

/-- `MutationHistogram.merge` (mutation_histogram.py 89-129): fails on any
mismatch of the six identity fields, then sums the counters.  The source
has no line adding `other.del_bases`, so the merged histogram keeps
`self.del_bases` unchanged. -/
def MutationHistogram.merge (self other : MutationHistogram) : Option MutationHistogram :=
  if self.name ≠ other.name then none
  else if self.sequence ≠ other.sequence then none
  else if self.data_type ≠ other.data_type then none
  else if self.start ≠ other.start then none
  else if self.end_ ≠ other.end_ then none
  else if self.structure_ ≠ other.structure_ then none
  else some { self with
    num_reads := self.num_reads + other.num_reads
    num_aligned := self.num_aligned + other.num_aligned
    skips_low_mapq := self.skips_low_mapq + other.skips_low_mapq
    skips_short_read := self.skips_short_read + other.skips_short_read
    skips_too_many_muts := self.skips_too_many_muts + other.skips_too_many_muts
    num_of_mutations := loopAdd self.num_of_mutations other.num_of_mutations
    mut_bases := loopAdd self.mut_bases other.mut_bases
    ins_bases := loopAdd self.ins_bases other.ins_bases
    cov_bases := loopAdd self.cov_bases other.cov_bases
    info_bases := loopAdd self.info_bases other.info_bases
    mod_bases_A := loopAdd self.mod_bases_A other.mod_bases_A
    mod_bases_C := loopAdd self.mod_bases_C other.mod_bases_C
    mod_bases_G := loopAdd self.mod_bases_G other.mod_bases_G
    mod_bases_T := loopAdd self.mod_bases_T other.mod_bases_T }

/-- `l[i] += 1`; out of range the source raises IndexError (not modelled:
`List.set` is then the identity). -/
def listInc (l : List Nat) (i : Nat) : List Nat := l.set i (l.getD i 0 + 1)

/-- `self.mod_bases[read_bit][pos] += 1` for a mutated base. -/
def bumpMod (mh : MutationHistogram) (b : Char) (pos : Nat) : MutationHistogram :=
  if b = 'A' then { mh with mod_bases_A := listInc mh.mod_bases_A pos }
  else if b = 'C' then { mh with mod_bases_C := listInc mh.mod_bases_C pos }
  else if b = 'G' then { mh with mod_bases_G := listInc mh.mod_bases_G pos }
  else { mh with mod_bases_T := listInc mh.mod_bases_T pos }

/-- `get_nuc_coords` (mutation_histogram.py 168-172): `range(start, end+1)`. -/
def MutationHistogram.get_nuc_coords (self : MutationHistogram) : List Nat :=
  List.range' self.start (self.end_ + 1 - self.start)

/-- One position of the `record_bit_vector` scan; the second accumulator
component is the running per-read mutation tally. -/
def recordPos (bv : BV) (acc : MutationHistogram × Nat) (pos : Nat) : MutationHistogram × Nat :=
  match dget? bv pos with
  | none => acc
  | some read_bit =>
    let mh0 := acc.1
    let mh1 :=
      if read_bit ≠ '?' then { mh0 with cov_bases := listInc mh0.cov_bases pos } else mh0
    if isBase read_bit then
      let mh2 := bumpMod mh1 read_bit pos
      let mh3 := { mh2 with mut_bases := listInc mh2.mut_bases pos }
      ({ mh3 with info_bases := listInc mh3.info_bases pos }, acc.2 + 1)
    else if read_bit = '1' then
      let mh2 := { mh1 with del_bases := listInc mh1.del_bases pos }
      ({ mh2 with info_bases := listInc mh2.info_bases pos }, acc.2)
    else ({ mh1 with info_bases := listInc mh1.info_bases pos }, acc.2)

/-- `MutationHistogram.record_bit_vector` (mutation_histogram.py 131-148). -/
def MutationHistogram.record_bit_vector (self : MutationHistogram) (bv : BV) :
    MutationHistogram :=
  let self1 := { self with num_reads := self.num_reads + 1, num_aligned := self.num_aligned + 1 }
  let r := self1.get_nuc_coords.foldl (recordPos bv) (self1, 0)
  { r.1 with num_of_mutations := listInc r.1.num_of_mutations r.2 }

/-- Division of numpy scalars: a zero denominator yields NaN or an infinity
with only a RuntimeWarning (no ZeroDivisionError is raised), modelled as
`none`; a nonzero denominator gives the exact quotient. -/
def floatDiv (a b : ℚ) : Option ℚ := if b = 0 then none else some (a / b)

/-- Python `round(q, d)` with `m = 10 ^ d`: round half to even at the d-th
decimal (the binary floating-point representation error is not modelled;
the theorems below only evaluate it away from ties). -/
def pyRoundAt (m : ℚ) (q : ℚ) : ℚ :=
  let y := q * m
  let fl : ℤ := Int.fdiv y.num (y.den : ℤ)
  let frac : ℚ := y - (fl : ℚ)
  let r : ℤ :=
    if frac < 1 / 2 then fl
    else if 1 / 2 < frac then fl + 1
    else if fl % 2 = 0 then fl else fl + 1
  (r : ℚ) / m

/-- `MutationHistogram.get_pop_avg` (mutation_histogram.py 174-191): the
bare `except` catches an IndexError from an out-of-range position (yielding
0.0), but a zero `info_bases[pos]` raises nothing under numpy and the NaN
(`none`) flows through `round`. -/
def MutationHistogram.get_pop_avg (self : MutationHistogram) (inc_del : Bool) :
    List (Option ℚ) :=
  self.get_nuc_coords.map (fun pos =>
    if inc_del then
      if pos < self.del_bases.length ∧ pos < self.mut_bases.length ∧
          pos < self.info_bases.length then
        (floatDiv ((self.del_bases.getD pos 0 : ℚ) + (self.mut_bases.getD pos 0 : ℚ))
          (self.info_bases.getD pos 0 : ℚ)).map (pyRoundAt 100000)
      else some 0
    else
      if pos < self.mut_bases.length ∧ pos < self.info_bases.length then
        (floatDiv (self.mut_bases.getD pos 0 : ℚ)
          (self.info_bases.getD pos 0 : ℚ)).map (pyRoundAt 100000)
      else some 0)

/-- `MutationHistogram.get_percent_mutations` (mutation_histogram.py
211-216): `num_of_mutations[0:4] + [sum(num_of_mutations[5:])]`, divided by
`num_aligned`, times 100, rounded to 2 decimals. -/
def MutationHistogram.get_percent_mutations (self : MutationHistogram) : List (Option ℚ) :=
  let data := self.num_of_mutations.take 4 ++ [(self.num_of_mutations.drop 5).sum]
  data.map (fun x =>
    (floatDiv (x : ℚ) (self.num_aligned : ℚ)).map (fun q => pyRoundAt 100 (q * 100)))

/-- The percent-mutation distribution as the claim words it: buckets for
0, 1, 2 and 3 mutations plus one bucket summing all reads with 4 or more
mutations (`num_of_mutations[0:4] + [sum(num_of_mutations[4:])]`). -/
def claimPercentMutations (self : MutationHistogram) : List (Option ℚ) :=
  let data := self.num_of_mutations.take 4 ++ [(self.num_of_mutations.drop 4).sum]
  data.map (fun x =>
    (floatDiv (x : ℚ) (self.num_aligned : ℚ)).map (fun q => pyRoundAt 100 (q * 100)))

-- Decomposition of a CIGAR string into matched tokens and dropped chars --------

/-- One piece of an input string as seen by the CIGAR scanner: either a
single character it dropped, or a token it matched. -/
def pieceChars : Char ⊕ (List Char × Char) → List Char
  | .inl c => [c]
  | .inr t => t.1 ++ [t.2]

/-- The characters covered by a piece list, in order. -/
def piecesChars (ps : List (Char ⊕ (List Char × Char))) : List Char :=
  (ps.map pieceChars).flatten

/-- The tokens among a piece list, in order. -/
def piecesTokens (ps : List (Char ⊕ (List Char × Char))) : List (List Char × Char) :=
  ps.filterMap (fun p => match p with | .inl _ => none | .inr t => some t)

-- Concrete inputs used by the claim checks ------------------------------------

/-- A bit vector recording one deletion at position 1. -/
def bvDel : BV := [(1, '1')]

/-- Histogram over reference "A" after recording one read with a deletion. -/
def mhA : MutationHistogram := (mhNew "r" "A" "DMS").record_bit_vector bvDel

/-- Histogram over reference "A" after recording two reads with a deletion. -/
def mhB : MutationHistogram :=
  ((mhNew "r" "A" "DMS").record_bit_vector bvDel).record_bit_vector bvDel

/-- A bit vector with four mutated bases over reference "ACGT". -/
def bvFourMuts : BV := [(1, 'C'), (2, 'G'), (3, 'T'), (4, 'A')]

/-- Histogram over "ACGT" after recording one read with exactly 4 mutations. -/
def mhC : MutationHistogram := (mhNew "r2" "ACGT" "DMS").record_bit_vector bvFourMuts

/-- A freshly constructed histogram over "A": no reads recorded, so
`info_bases[1] = 0`. -/
def mhD : MutationHistogram := mhNew "r3" "A" "DMS"

/-- A fully matching read over "AAAAAAAA" with a two-base deletion, the
spec's worked example (CIGAR `3M2D3M` at position 1). -/
def readHomopolymer : AlignedRead :=
  { qname := "q1", rname := "r", pos := 1, seq := "AAAAAA".toList,
    qual := "IIIIII".toList, cigar := "3M2D3M", mapq := 44 }

/-- A read with a trailing two-base soft clip aligned flush with the end of
the eight-base reference "ACGTACGT". -/
def readTrailClip : AlignedRead :=
  { qname := "q2", rname := "r", pos := 1, seq := "ACGTACGTAA".toList,
    qual := "IIIIIIIIII".toList, cigar := "8M2S", mapq := 44 }

/-- A one-base matching read whose single quality character ':' scores
exactly 25 under the standard phred table. -/
def readQualEdge : AlignedRead :=
  { qname := "q4", rname := "r", pos := 1, seq := "A".toList,
    qual := ":".toList, cigar := "1M", mapq := 44 }

/-- A one-base match followed by a one-base deletion at the end of the
two-base homopolymer reference "AA". -/
def readDelAmbig : AlignedRead :=
  { qname := "q3", rname := "r", pos := 1, seq := "A".toList,
    qual := "I".toList, cigar := "1M1D", mapq := 44 }

-- Dict lemmas -----------------------------------------------------------------

theorem dget?_nil (k : Nat) : dget? [] k = none := rfl

theorem dget?_cons (p : Nat × Char) (rest : BV) (k : Nat) :
    dget? (p :: rest) k = if p.1 == k then some p.2 else dget? rest k := by
  unfold dget?
  simp only [List.find?]
  cases h : (p.1 == k) <;> simp [h]

theorem dmem_cons (p : Nat × Char) (rest : BV) (k : Nat) :
    dmem (p :: rest) k = (p.1 == k || dmem rest k) := by
  simp [dmem]

theorem dmem_eq_isSome (d : BV) (k : Nat) : dmem d k = (dget? d k).isSome := by
  induction d with
  | nil => rfl
  | cons p rest ih =>
    rw [dmem_cons, dget?_cons]
    cases h : (p.1 == k) <;> simp [h, ih]

theorem dget?_map_overwrite (d : BV) (k : Nat) (v : Char) (h : dmem d k = true) :
    dget? (d.map (fun p => if p.1 == k then (k, v) else p)) k = some v := by
  induction d with
  | nil => simp [dmem] at h
  | cons p rest ih =>
    rw [List.map_cons]
    by_cases hp : (p.1 == k) = true
    · rw [if_pos hp, dget?_cons]
      simp
    · rw [if_neg hp, dget?_cons]
      have hpf : (p.1 == k) = false := by simpa using hp
      have h' : dmem rest k = true := by
        simpa only [dmem_cons, hpf, Bool.false_or] using h
      simp only [hpf, if_false]
      exact ih h'

theorem dget?_append_absent (d : BV) (k : Nat) (v : Char) (h : dmem d k = false) :
    dget? (d ++ [(k, v)]) k = some v := by
  induction d with
  | nil =>
    rw [List.nil_append, dget?_cons]
    simp
  | cons p rest ih =>
    rw [List.cons_append, dget?_cons]
    have hp : (p.1 == k) = false := by
      by_contra hc
      have : (p.1 == k) = true := by simpa using hc
      simp [dmem_cons, this] at h
    have h' : dmem rest k = false := by
      simpa only [dmem_cons, hp, Bool.false_or] using h
    simp only [hp, if_false]
    exact ih h'

theorem dget?_dset_self (d : BV) (k : Nat) (v : Char) : dget? (dset d k v) k = some v := by
  unfold dset
  by_cases h : dmem d k = true
  · rw [if_pos h]; exact dget?_map_overwrite d k v h
  · rw [if_neg h]
    exact dget?_append_absent d k v (by simpa using h)

theorem dget?_map_overwrite_ne (d : BV) (k k' : Nat) (v : Char) (h : k' ≠ k) :
    dget? (d.map (fun p => if p.1 == k then (k, v) else p)) k' = dget? d k' := by
  induction d with
  | nil => rfl
  | cons p rest ih =>
    rw [List.map_cons]
    by_cases hp : (p.1 == k) = true
    · rw [if_pos hp, dget?_cons, dget?_cons]
      have hpk : p.1 = k := by simpa using hp
      have h1 : (((k, v) : Nat × Char).1 == k') = false := by
        simpa using Ne.symm h
      have h2 : (p.1 == k') = false := by
        rw [hpk]
        simpa using Ne.symm h
      simp only [h1, h2, if_false]
      exact ih
    · rw [if_neg hp, dget?_cons, dget?_cons]
      by_cases hp' : (p.1 == k') = true
      · rw [if_pos hp', if_pos hp']
      · rw [if_neg hp', if_neg hp']
        exact ih

theorem dget?_append_single_ne (d : BV) (k k' : Nat) (v : Char) (h : k' ≠ k) :
    dget? (d ++ [(k, v)]) k' = dget? d k' := by
  induction d with
  | nil =>
    rw [List.nil_append, dget?_cons]
    rw [if_neg (show ¬ ((((k, v) : Nat × Char).1 == k') = true) by simpa using Ne.symm h)]
  | cons p rest ih =>
    rw [List.cons_append, dget?_cons, dget?_cons]
    by_cases hp : (p.1 == k') = true
    · rw [if_pos hp, if_pos hp]
    · rw [if_neg hp, if_neg hp]
      exact ih

theorem dget?_dset_ne (d : BV) (k k' : Nat) (v : Char) (h : k' ≠ k) :
    dget? (dset d k v) k' = dget? d k' := by
  unfold dset
  by_cases hm : dmem d k = true
  · rw [if_pos hm]; exact dget?_map_overwrite_ne d k k' v h
  · rw [if_neg hm]; exact dget?_append_single_ne d k k' v h

theorem dmem_dset_cases (d : BV) (k : Nat) (v : Char) (k' : Nat)
    (h : dmem (dset d k v) k' = true) : k' = k ∨ dmem d k' = true := by
  by_cases hk : k' = k
  · exact .inl hk
  · right
    rw [dmem_eq_isSome] at h ⊢
    rwa [dget?_dset_ne d k k' v hk] at h

theorem dkeys_dset (d : BV) (k : Nat) (v : Char) :
    dkeys (dset d k v) = if dmem d k then dkeys d else dkeys d ++ [k] := by
  unfold dset
  by_cases h : dmem d k = true
  · rw [if_pos h, if_pos h]
    unfold dkeys
    rw [List.map_map]
    apply List.map_congr_left
    intro p _
    by_cases hpk : (p.1 == k) = true
    · have : p.1 = k := by simpa using hpk
      simp [Function.comp, hpk, this]
    · simp [Function.comp, hpk]
  · rw [if_neg h, if_neg h]
    simp [dkeys]

theorem mem_dkeys_of_dmem (d : BV) (k : Nat) (h : dmem d k = true) : k ∈ dkeys d := by
  simp only [dmem, List.any_eq_true] at h
  obtain ⟨p, hp, hpk⟩ := h
  exact List.mem_map.mpr ⟨p, hp, by simpa using hpk⟩

theorem dmem_of_mem_dkeys (d : BV) (k : Nat) (h : k ∈ dkeys d) : dmem d k = true := by
  simp only [dkeys, List.mem_map] at h
  obtain ⟨p, hp, hpk⟩ := h
  simp only [dmem, List.any_eq_true]
  exact ⟨p, hp, by simp [hpk]⟩

theorem nodup_dkeys_dset (d : BV) (k : Nat) (v : Char) (h : (dkeys d).Nodup) :
    (dkeys (dset d k v)).Nodup := by
  rw [dkeys_dset]
  by_cases hm : dmem d k = true
  · simpa [hm] using h
  · have hk : k ∉ dkeys d := fun hc => by simp [dmem_of_mem_dkeys d k hc] at hm
    simp [hm, List.nodup_append, h, hk]

theorem dget?_mem (d : BV) (k : Nat) (v : Char) (h : dget? d k = some v) : (k, v) ∈ d := by
  induction d with
  | nil => simp [dget?_nil] at h
  | cons p rest ih =>
    rw [dget?_cons] at h
    by_cases hp : (p.1 == k) = true
    · rw [if_pos hp] at h
      obtain ⟨a, b⟩ := p
      have hpk : a = k := by simpa using hp
      have hv : b = v := by simpa using h
      subst hpk
      subst hv
      exact List.mem_cons_self _ _
    · rw [if_neg hp] at h
      exact List.mem_cons_of_mem _ (ih h)

-- Run lemmas for the classifier loops -----------------------------------------

theorem markRun_snd (c : Char) (n i : Nat) (bv : BV) : (markRun c n i bv).2 = i + n := by
  induction n generalizing i bv with
  | zero => rfl
  | succ n ih =>
    show (markRun c n (i + 1) (dset bv i c)).2 = i + (n + 1)
    rw [ih]
    omega

theorem dget?_markRun (c : Char) (n i : Nat) (bv : BV) (k : Nat) :
    dget? (markRun c n i bv).1 k = if i ≤ k ∧ k < i + n then some c else dget? bv k := by
  induction n generalizing i bv with
  | zero =>
    rw [if_neg (by omega)]
    rfl
  | succ n ih =>
    show dget? (markRun c n (i + 1) (dset bv i c)).1 k = _
    rw [ih]
    by_cases h1 : (i + 1 ≤ k ∧ k < i + 1 + n)
    · rw [if_pos h1, if_pos (by omega)]
    · rw [if_neg h1]
      by_cases hk : k = i
      · subst hk
        rw [dget?_dset_self, if_pos (by omega)]
      · rw [dget?_dset_ne bv i k c hk, if_neg (by omega)]

theorem mRun_snd (phred : Char → Nat) (cutoff : Nat) (refSeq readSeq qual : List Char)
    (n i j : Nat) (bv : BV) :
    (mRun phred cutoff refSeq readSeq qual n i j bv).2 = (i + n, j + n) := by
  induction n generalizing i j bv with
  | zero => rfl
  | succ n ih =>
    show (mRun phred cutoff refSeq readSeq qual n (i + 1) (j + 1) _).2 = _
    rw [ih]
    simp only [Prod.mk.injEq]
    omega

theorem dget?_mRun (phred : Char → Nat) (cutoff : Nat) (refSeq readSeq qual : List Char)
    (n i j : Nat) (bv : BV) (k : Nat) :
    dget? (mRun phred cutoff refSeq readSeq qual n i j bv).1 k =
      if i ≤ k ∧ k < i + n then
        some (mValue phred cutoff refSeq readSeq qual k (j + (k - i)))
      else dget? bv k := by
  induction n generalizing i j bv with
  | zero =>
    rw [if_neg (by omega)]
    rfl
  | succ n ih =>
    show dget? (mRun phred cutoff refSeq readSeq qual n (i + 1) (j + 1)
      (dset bv i (mValue phred cutoff refSeq readSeq qual i j))).1 k = _
    rw [ih]
    by_cases h1 : (i + 1 ≤ k ∧ k < i + 1 + n)
    · rw [if_pos h1, if_pos (by omega)]
      have harg : (j + 1) + (k - (i + 1)) = j + (k - i) := by omega
      rw [harg]
    · rw [if_neg h1]
      by_cases hk : k = i
      · subst hk
        rw [dget?_dset_self, if_pos (by omega)]
        simp
      · rw [dget?_dset_ne bv i k _ hk, if_neg (by omega)]

-- Unfolding lemmas for convertLoop, one per CIGAR operation --------------------

theorem convertLoop_nil (phred : Char → Nat) (cutoff W : Nat)
    (refSeq readSeq qual : List Char) (i j : Nat) (bv : BV) :
    convertLoop phred cutoff W refSeq readSeq qual [] i j bv = bv := rfl

theorem convertLoop_M (phred : Char → Nat) (cutoff W : Nat)
    (refSeq readSeq qual : List Char) (length : Nat) (rest : List (Nat × Char))
    (i j : Nat) (bv : BV) :
    convertLoop phred cutoff W refSeq readSeq qual ((length, 'M') :: rest) i j bv =
      convertLoop phred cutoff W refSeq readSeq qual rest (i + length) (j + length)
        (mRun phred cutoff refSeq readSeq qual length i j bv).1 := by
  simp [convertLoop, mRun_snd]

theorem convertLoop_D (phred : Char → Nat) (cutoff W : Nat)
    (refSeq readSeq qual : List Char) (length : Nat) (rest : List (Nat × Char))
    (i j : Nat) (bv : BV) :
    convertLoop phred cutoff W refSeq readSeq qual ((length, 'D') :: rest) i j bv =
      convertLoop phred cutoff W refSeq readSeq qual rest (i + (length - 1) + 1) j
        (dset (markRun '?' (length - 1) i bv).1 (i + (length - 1))
          (if calcAmbigReads W refSeq (i + (length - 1)) length then '?' else '1')) := by
  simp [convertLoop, markRun_snd]

theorem convertLoop_I (phred : Char → Nat) (cutoff W : Nat)
    (refSeq readSeq qual : List Char) (length : Nat) (rest : List (Nat × Char))
    (i j : Nat) (bv : BV) :
    convertLoop phred cutoff W refSeq readSeq qual ((length, 'I') :: rest) i j bv =
      convertLoop phred cutoff W refSeq readSeq qual rest i (j + length) bv := by
  simp [convertLoop]

theorem convertLoop_S_last (phred : Char → Nat) (cutoff W : Nat)
    (refSeq readSeq qual : List Char) (length : Nat) (i j : Nat) (bv : BV) :
    convertLoop phred cutoff W refSeq readSeq qual [(length, 'S')] i j bv =
      (markRun '*' length i bv).1 := by
  simp [convertLoop, convertLoop_nil]

theorem convertLoop_S_mid (phred : Char → Nat) (cutoff W : Nat)
    (refSeq readSeq qual : List Char) (length : Nat) (rest : List (Nat × Char))
    (i j : Nat) (bv : BV) (h : rest ≠ []) :
    convertLoop phred cutoff W refSeq readSeq qual ((length, 'S') :: rest) i j bv =
      convertLoop phred cutoff W refSeq readSeq qual rest i (j + length) bv := by
  simp [convertLoop, h]

theorem convertLoop_unknown (phred : Char → Nat) (cutoff W : Nat)
    (refSeq readSeq qual : List Char) (length : Nat) (desc : Char)
    (rest : List (Nat × Char)) (i j : Nat) (bv : BV)
    (h : knownOp desc = false) :
    convertLoop phred cutoff W refSeq readSeq qual ((length, desc) :: rest) i j bv = [] := by
  simp only [knownOp, Bool.or_eq_false_iff, beq_eq_false_iff_ne, ne_eq] at h
  obtain ⟨⟨⟨h1, h2⟩, h3⟩, h4⟩ := h
  simp [convertLoop, h1, h2, h3, h4]

/-- Positions below the running reference index are never touched by the
rest of the classification (every write lands at or above the current
index), provided all remaining operations are recognized ones. -/
theorem convertLoop_preserve (phred : Char → Nat) (cutoff W : Nat)
    (refSeq readSeq qual : List Char) :
    ∀ (ops : List (Nat × Char)), (∀ p ∈ ops, knownOp p.2 = true) →
    ∀ (i j : Nat) (bv : BV) (k : Nat), k < i →
      dget? (convertLoop phred cutoff W refSeq readSeq qual ops i j bv) k = dget? bv k := by
  intro ops
  induction ops with
  | nil =>
    intro _ i j bv k _
    rfl
  | cons op rest ih =>
    intro hops i j bv k hk
    obtain ⟨length, desc⟩ := op
    have hdesc : knownOp desc = true := hops (length, desc) (List.mem_cons_self _ _)
    have hrest : ∀ p ∈ rest, knownOp p.2 = true := fun p hp =>
      hops p (List.mem_cons_of_mem _ hp)
    have hcases : desc = 'M' ∨ desc = 'D' ∨ desc = 'I' ∨ desc = 'S' := by
      simp only [knownOp, Bool.or_eq_true, beq_iff_eq] at hdesc
      tauto
    rcases hcases with h | h | h | h <;> subst h
    · rw [convertLoop_M, ih hrest (i + length) (j + length) _ k (by omega),
        dget?_mRun, if_neg (by omega)]
    · rw [convertLoop_D, ih hrest (i + (length - 1) + 1) j _ k (by omega),
        dget?_dset_ne _ _ _ _ (by omega), dget?_markRun, if_neg (by omega)]
    · rw [convertLoop_I]
      exact ih hrest i (j + length) bv k hk
    · by_cases hrest0 : rest = []
      · subst hrest0
        rw [convertLoop_S_last, dget?_markRun, if_neg (by omega)]
      · rw [convertLoop_S_mid phred cutoff W refSeq readSeq qual length rest i j bv hrest0]
        exact ih hrest i (j + length) bv k hk

-- Key-range lemmas for the classifier ------------------------------------------

theorem refSpan_M (length : Nat) (rest : List (Nat × Char)) :
    refSpan ((length, 'M') :: rest) = length + refSpan rest := by
  simp [refSpan]

theorem refSpan_D (length : Nat) (rest : List (Nat × Char)) :
    refSpan ((length, 'D') :: rest) = ((length - 1) + 1) + refSpan rest := by
  simp [refSpan]

theorem refSpan_I (length : Nat) (rest : List (Nat × Char)) :
    refSpan ((length, 'I') :: rest) = refSpan rest := by
  simp [refSpan]

theorem refSpan_S_last (length : Nat) : refSpan [(length, 'S')] = length := by
  simp [refSpan]

theorem refSpan_S_mid (length : Nat) (rest : List (Nat × Char)) (h : rest ≠ []) :
    refSpan ((length, 'S') :: rest) = refSpan rest := by
  simp [refSpan, h]

theorem dmem_markRun (c : Char) (n i : Nat) (bv : BV) (k : Nat)
    (h : dmem (markRun c n i bv).1 k = true) :
    dmem bv k = true ∨ (i ≤ k ∧ k < i + n) := by
  rw [dmem_eq_isSome, dget?_markRun] at h
  by_cases hr : (i ≤ k ∧ k < i + n)
  · exact .inr hr
  · rw [if_neg hr] at h
    left
    rw [dmem_eq_isSome]
    exact h

theorem dmem_mRun (phred : Char → Nat) (cutoff : Nat) (refSeq readSeq qual : List Char)
    (n i j : Nat) (bv : BV) (k : Nat)
    (h : dmem (mRun phred cutoff refSeq readSeq qual n i j bv).1 k = true) :
    dmem bv k = true ∨ (i ≤ k ∧ k < i + n) := by
  rw [dmem_eq_isSome, dget?_mRun] at h
  by_cases hr : (i ≤ k ∧ k < i + n)
  · exact .inr hr
  · rw [if_neg hr] at h
    left
    rw [dmem_eq_isSome]
    exact h

theorem dmem_convertLoop (phred : Char → Nat) (cutoff W : Nat)
    (refSeq readSeq qual : List Char) :
    ∀ (ops : List (Nat × Char)) (i j : Nat) (bv : BV) (k : Nat),
      dmem (convertLoop phred cutoff W refSeq readSeq qual ops i j bv) k = true →
      dmem bv k = true ∨ (i ≤ k ∧ k < i + refSpan ops) := by
  intro ops
  induction ops with
  | nil =>
    intro i j bv k h
    exact .inl h
  | cons op rest ih =>
    intro i j bv k h
    obtain ⟨length, desc⟩ := op
    by_cases hM : desc = 'M'
    · subst hM
      rw [convertLoop_M] at h
      rw [refSpan_M]
      rcases ih (i + length) (j + length) _ k h with h2 | h2
      · rcases dmem_mRun phred cutoff refSeq readSeq qual length i j bv k h2 with h3 | h3
        · exact .inl h3
        · right; omega
      · right; omega
    · by_cases hD : desc = 'D'
      · subst hD
        rw [convertLoop_D] at h
        rw [refSpan_D]
        rcases ih (i + (length - 1) + 1) j _ k h with h2 | h2
        · rcases dmem_dset_cases _ _ _ _ h2 with h3 | h3
          · right; omega
          · rcases dmem_markRun '?' (length - 1) i bv k h3 with h4 | h4
            · exact .inl h4
            · right; omega
        · right; omega
      · by_cases hI : desc = 'I'
        · subst hI
          rw [convertLoop_I] at h
          rw [refSpan_I]
          exact ih i (j + length) bv k h
        · by_cases hS : desc = 'S'
          · subst hS
            by_cases hrest0 : rest = []
            · subst hrest0
              rw [convertLoop_S_last] at h
              rw [refSpan_S_last]
              exact dmem_markRun '*' length i bv k h
            · rw [convertLoop_S_mid phred cutoff W refSeq readSeq qual
                length rest i j bv hrest0] at h
              rw [refSpan_S_mid length rest hrest0]
              exact ih i (j + length) bv k h
          · have hu : knownOp desc = false := by
              simp [knownOp, hM, hD, hI, hS]
            rw [convertLoop_unknown phred cutoff W refSeq readSeq qual
              length desc rest i j bv hu] at h
            simp [dmem] at h

theorem nodup_dkeys_markRun (c : Char) (n i : Nat) (bv : BV) (h : (dkeys bv).Nodup) :
    (dkeys (markRun c n i bv).1).Nodup := by
  induction n generalizing i bv with
  | zero => exact h
  | succ n ih =>
    show (dkeys (markRun c n (i + 1) (dset bv i c)).1).Nodup
    exact ih (i + 1) _ (nodup_dkeys_dset bv i c h)

theorem nodup_dkeys_mRun (phred : Char → Nat) (cutoff : Nat)
    (refSeq readSeq qual : List Char) (n i j : Nat) (bv : BV) (h : (dkeys bv).Nodup) :
    (dkeys (mRun phred cutoff refSeq readSeq qual n i j bv).1).Nodup := by
  induction n generalizing i j bv with
  | zero => exact h
  | succ n ih =>
    show (dkeys (mRun phred cutoff refSeq readSeq qual n (i + 1) (j + 1) _).1).Nodup
    exact ih (i + 1) (j + 1) _ (nodup_dkeys_dset bv i _ h)

theorem nodup_dkeys_convertLoop (phred : Char → Nat) (cutoff W : Nat)
    (refSeq readSeq qual : List Char) :
    ∀ (ops : List (Nat × Char)) (i j : Nat) (bv : BV), (dkeys bv).Nodup →
      (dkeys (convertLoop phred cutoff W refSeq readSeq qual ops i j bv)).Nodup := by
  intro ops
  induction ops with
  | nil =>
    intro i j bv h
    exact h
  | cons op rest ih =>
    intro i j bv h
    obtain ⟨length, desc⟩ := op
    by_cases hM : desc = 'M'
    · subst hM
      rw [convertLoop_M]
      exact ih _ _ _ (nodup_dkeys_mRun phred cutoff refSeq readSeq qual length i j bv h)
    · by_cases hD : desc = 'D'
      · subst hD
        rw [convertLoop_D]
        exact ih _ _ _ (nodup_dkeys_dset _ _ _
          (nodup_dkeys_markRun '?' (length - 1) i bv h))
      · by_cases hI : desc = 'I'
        · subst hI
          rw [convertLoop_I]
          exact ih _ _ _ h
        · by_cases hS : desc = 'S'
          · subst hS
            by_cases hrest0 : rest = []
            · subst hrest0
              rw [convertLoop_S_last]
              exact nodup_dkeys_markRun '*' length i bv h
            · rw [convertLoop_S_mid phred cutoff W refSeq readSeq qual
                length rest i j bv hrest0]
              exact ih _ _ _ h
          · have hu : knownOp desc = false := by
              simp [knownOp, hM, hD, hI, hS]
            rw [convertLoop_unknown phred cutoff W refSeq readSeq qual
              length desc rest i j bv hu]
            simp [dkeys]

-- PairMerger lemmas -------------------------------------------------------------

theorem validBit_cases (c : Char) (h : validBit c = true) :
    c = '0' ∨ c = '1' ∨ c = '?' ∨ c = '*' ∨ c = 'A' ∨ c = 'C' ∨ c = 'G' ∨ c = 'T' := by
  simp only [validBit, isBase, Bool.or_eq_true, beq_iff_eq] at h
  tauto

theorem mergeBits_isSome (b1 b2 : Char) (h1 : validBit b1 = true) (h2 : validBit b2 = true)
    (hne : b1 ≠ b2) : (mergeBits b1 b2).isSome = true := by
  rcases validBit_cases b1 h1 with h | h | h | h | h | h | h | h <;>
    rcases validBit_cases b2 h2 with g | g | g | g | g | g | g | g <;>
      subst h <;> subst g <;>
        first
          | exact absurd rfl hne
          | decide

theorem mergeLoop_no_warn (bv1 : BV) (hv1 : ∀ p ∈ bv1, validBit p.2 = true) :
    ∀ (l : List (Nat × Char)) (bv : BV),
      (∀ p ∈ l, validBit p.2 = true) →
      (l.map Prod.fst).Nodup →
      (∀ p ∈ l, dget? bv p.1 = dget? bv1 p.1) →
      (mergeLoop bv1 l bv false).2 = false := by
  intro l
  induction l with
  | nil =>
    intro bv _ _ _
    rfl
  | cons pb rest ih =>
    intro bv hval hnd hagr
    obtain ⟨pos, bit⟩ := pb
    have hagr0 : dget? bv pos = dget? bv1 pos := hagr (pos, bit) (List.mem_cons_self _ _)
    have hvalbit : validBit bit = true := hval (pos, bit) (List.mem_cons_self _ _)
    rw [List.map_cons] at hnd
    have hndrest : (rest.map Prod.fst).Nodup := (List.nodup_cons.mp hnd).2
    have hpos_not : pos ∉ rest.map Prod.fst := (List.nodup_cons.mp hnd).1
    have hvalrest : ∀ p ∈ rest, validBit p.2 = true := fun p hp =>
      hval p (List.mem_cons_of_mem _ hp)
    cases hbv : dget? bv pos with
    | none =>
      have heq : mergeLoop bv1 ((pos, bit) :: rest) bv false =
          mergeLoop bv1 rest (dset bv pos bit) false := by
        simp only [mergeLoop, hbv]
      rw [heq]
      refine ih (dset bv pos bit) hvalrest hndrest ?_
      intro p hp
      have hne : p.1 ≠ pos := fun he =>
        hpos_not (he ▸ List.mem_map_of_mem Prod.fst hp)
      rw [dget?_dset_ne bv pos p.1 bit hne]
      exact hagr p (List.mem_cons_of_mem _ hp)
    | some cur =>
      by_cases hbc : bit = cur
      · have heq : mergeLoop bv1 ((pos, bit) :: rest) bv false =
            mergeLoop bv1 rest bv false := by
          simp only [mergeLoop, hbv, if_pos hbc]
        rw [heq]
        exact ih bv hvalrest hndrest (fun p hp => hagr p (List.mem_cons_of_mem _ hp))
      · have hcur1 : dget? bv1 pos = some cur := by rw [← hagr0]; exact hbv
        have hvc : validBit cur = true := hv1 (pos, cur) (dget?_mem bv1 pos cur hcur1)
        have hgd : dgetD bv1 pos ' ' = cur := by rw [dgetD, hcur1]; rfl
        have hsome : (mergeBits (dgetD bv1 pos ' ') bit).isSome = true := by
          rw [hgd]
          exact mergeBits_isSome cur bit hvc hvalbit (fun he => hbc he.symm)
        obtain ⟨v, hv⟩ := Option.isSome_iff_exists.mp hsome
        have heq : mergeLoop bv1 ((pos, bit) :: rest) bv false =
            mergeLoop bv1 rest (dset bv pos v) false := by
          simp only [mergeLoop, hbv, if_neg hbc, hv]
        rw [heq]
        refine ih (dset bv pos v) hvalrest hndrest ?_
        intro p hp
        have hne : p.1 ≠ pos := fun he =>
          hpos_not (he ▸ List.mem_map_of_mem Prod.fst hp)
        rw [dget?_dset_ne bv pos p.1 v hne]
        exact hagr p (List.mem_cons_of_mem _ hp)

-- CIGAR scanner decomposition ---------------------------------------------------

theorem piecesChars_all_inl (ds : List Char) :
    piecesChars (ds.map Sum.inl) = ds := by
  induction ds with
  | nil => rfl
  | cons c rest ih =>
    simp only [piecesChars, List.map_cons, List.flatten_cons, pieceChars] at ih ⊢
    rw [ih]
    rfl

theorem piecesTokens_all_inl (ds : List Char) :
    piecesTokens (ds.map Sum.inl) = [] := by
  induction ds with
  | nil => rfl
  | cons c rest ih =>
    simp only [piecesTokens, List.map_cons, List.filterMap_cons] at ih ⊢
    exact ih

theorem scanCigar_decomposition (l ds : List Char) (hds : ∀ c ∈ ds, isDigitChar c = true) :
    ∃ ps, piecesChars ps = ds ++ l ∧ piecesTokens ps = scanCigar ds l ∧
      ∀ t ∈ piecesTokens ps, t.1 ≠ [] ∧ (∀ c ∈ t.1, isDigitChar c = true) ∧
        isUpperChar t.2 = true := by
  induction l generalizing ds with
  | nil =>
    refine ⟨ds.map Sum.inl, ?_, ?_, ?_⟩
    · rw [piecesChars_all_inl, List.append_nil]
    · rw [piecesTokens_all_inl]
      rfl
    · rw [piecesTokens_all_inl]
      intro t ht
      simp at ht
  | cons c rest ih =>
    by_cases hdig : isDigitChar c = true
    · obtain ⟨ps, h1, h2, h3⟩ := ih (ds ++ [c]) (by
        intro x hx
        rcases List.mem_append.mp hx with hx | hx
        · exact hds x hx
        · simp at hx
          subst hx
          exact hdig)
      refine ⟨ps, ?_, ?_, h3⟩
      · rw [h1, List.append_assoc]
        rfl
      · rw [h2]
        show scanCigar (ds ++ [c]) rest = scanCigar ds (c :: rest)
        rw [scanCigar, if_pos hdig]
    · by_cases hup : isUpperChar c = true ∧ ds ≠ []
      · obtain ⟨ps, h1, h2, h3⟩ := ih [] (by intro x hx; simp at hx)
        rw [List.nil_append] at h1
        refine ⟨.inr (ds, c) :: ps, ?_, ?_, ?_⟩
        · simp only [piecesChars, List.map_cons, List.flatten_cons, pieceChars] at h1 ⊢
          rw [h1, List.append_assoc]
          rfl
        · simp only [piecesTokens, List.filterMap_cons] at h2 ⊢
          rw [h2]
          show (ds, c) :: scanCigar [] rest = scanCigar ds (c :: rest)
          rw [scanCigar, if_neg hdig, if_pos hup]
        · intro t ht
          simp only [piecesTokens, List.filterMap_cons] at ht
          rcases List.mem_cons.mp ht with ht | ht
          · subst ht
            exact ⟨hup.2, hds, hup.1⟩
          · exact h3 t ht
      · obtain ⟨ps, h1, h2, h3⟩ := ih [] (by intro x hx; simp at hx)
        rw [List.nil_append] at h1
        refine ⟨ds.map Sum.inl ++ .inl c :: ps, ?_, ?_, ?_⟩
        · have hinl : piecesChars (ds.map Sum.inl) = ds := piecesChars_all_inl ds
          simp only [piecesChars, List.map_append, List.map_cons, List.flatten_append,
            List.flatten_cons, pieceChars] at hinl h1 ⊢
          rw [hinl, h1]
          rfl
        · have hinl : piecesTokens (ds.map Sum.inl) = [] := piecesTokens_all_inl ds
          simp only [piecesTokens, List.filterMap_append, List.filterMap_cons] at hinl h2 ⊢
          rw [hinl, h2]
          show [] ++ scanCigar [] rest = scanCigar ds (c :: rest)
          rw [List.nil_append, scanCigar, if_neg hdig, if_neg hup]
        · intro t ht
          have hinl : piecesTokens (ds.map Sum.inl) = [] := piecesTokens_all_inl ds
          simp only [piecesTokens, List.filterMap_append, List.filterMap_cons] at hinl ht
          rw [hinl] at ht
          simp only [List.nil_append] at ht
          exact h3 t ht

-- Claim theorems ----------------------------------------------------------------

/-- C1 (code_bug evidence): `MutationHistogram.merge` does not sum
`del_bases`.  With two histograms over reference "A" holding one and two
recorded deletions at position 1, the merged histogram keeps the left
operand's deletion count 1 instead of the claimed element-wise sum 3, while
other counters (e.g. `num_aligned`) are summed. -/
theorem c1_merge_drops_del_bases :
    mhA.del_bases = [0, 1] ∧ mhB.del_bases = [0, 2] ∧
    (mhA.merge mhB).map MutationHistogram.del_bases = some [0, 1] ∧
    (mhA.merge mhB).map MutationHistogram.num_aligned = some 3 :=
  ⟨by decide, by decide, by decide, by decide⟩

/-- C2 (code_bug evidence): because `merge` never adds `other.del_bases`,
histogram merge is not commutative field-by-field: merging the one-deletion
histogram with the two-deletion histogram gives deletion counts `[0, 1]`,
while the opposite order gives `[0, 2]`. -/
theorem c2_merge_del_bases_not_commutative :
    (mhA.merge mhB).map MutationHistogram.del_bases = some [0, 1] ∧
    (mhB.merge mhA).map MutationHistogram.del_bases = some [0, 2] ∧
    (mhA.merge mhB).map MutationHistogram.del_bases ≠
      (mhB.merge mhA).map MutationHistogram.del_bases :=
  ⟨by decide, by decide, by decide⟩

/-- C3 (counterexample): the claim resolves the ambiguity check with
out-of-range window slices treated as empty.  On the two-base homopolymer
"AA" with a length-1 deletion ending at position 2 and window 2, the
claim's check finds the alternate placement (true: the deletion is
genuinely ambiguous in a homopolymer), but the code's Python slicing wraps
the negative window start around the end of the reference and reports
not-ambiguous, so the classifier marks the final deleted position
`'1'` (Deletion) where the claim requires Ambiguous. -/
theorem c3_counterexample :
    claimAmbigCheck 2 "AA".toList 2 1 = true ∧
    calcAmbigReads 2 "AA".toList 2 1 = false ∧
    dget? (convertReadToBitVector phredStd 25 2 "AA".toList readDelAmbig) 2 = some '1' :=
  ⟨by decide, by decide, by decide⟩

/-- C3 (amended): for a deletion run of length `L ≥ 1` the classifier marks
the first `L - 1` deleted reference positions Ambiguous unconditionally and
marks the final deleted position Deletion exactly when `calcAmbigReads`
fails, where the check compares flanking contexts using the original
placement's window boundaries under Python slice semantics (a negative
window index wraps around the end of the reference rather than yielding an
empty slice). -/
theorem c3_amended (phred : Char → Nat) (cutoff W : Nat)
    (refSeq readSeq qual : List Char) (rest : List (Nat × Char)) (L i j : Nat) (bv : BV)
    (_hL : 1 ≤ L) (hrest : ∀ p ∈ rest, knownOp p.2 = true) :
    (∀ k, k < L - 1 →
      dget? (convertLoop phred cutoff W refSeq readSeq qual ((L, 'D') :: rest) i j bv)
        (i + k) = some '?') ∧
    dget? (convertLoop phred cutoff W refSeq readSeq qual ((L, 'D') :: rest) i j bv)
        (i + (L - 1)) =
      some (if calcAmbigReads W refSeq (i + (L - 1)) L then '?' else '1') := by
  constructor
  · intro k hkL
    rw [convertLoop_D,
      convertLoop_preserve phred cutoff W refSeq readSeq qual rest hrest
        (i + (L - 1) + 1) j _ (i + k) (by omega),
      dget?_dset_ne (markRun '?' (L - 1) i bv).1 (i + (L - 1)) (i + k) _ (by omega),
      dget?_markRun, if_pos (by omega)]
  · rw [convertLoop_D,
      convertLoop_preserve phred cutoff W refSeq readSeq qual rest hrest
        (i + (L - 1) + 1) j _ (i + (L - 1)) (by omega),
      dget?_dset_self]

/-- C3 (witness): the spec's worked example, reference "AAAAAAAA" with
CIGAR `3M2D3M` at position 1: when the deletion run starts (i = 4, j = 3),
both deleted positions 4 and 5 come out Ambiguous, position 5 because the
homopolymer makes the ambiguity check succeed. -/
theorem c3_amended_witness :
    calcAmbigReads 10 "AAAAAAAA".toList 5 2 = true ∧
    dget? (convertLoop phredStd 25 10 "AAAAAAAA".toList "AAAAAA".toList "IIIIII".toList
      [(2, 'D'), (3, 'M')] 4 3 [(1, '0'), (2, '0'), (3, '0')]) 4 = some '?' ∧
    dget? (convertLoop phredStd 25 10 "AAAAAAAA".toList "AAAAAA".toList "IIIIII".toList
      [(2, 'D'), (3, 'M')] 4 3 [(1, '0'), (2, '0'), (3, '0')]) 5 = some '?' := by
  refine ⟨by decide, ?_, ?_⟩
  · have h := (c3_amended phredStd 25 10 "AAAAAAAA".toList "AAAAAA".toList "IIIIII".toList
      [(3, 'M')] 2 4 3 [(1, '0'), (2, '0'), (3, '0')] (by decide) (by decide)).1 0 (by decide)
    rw [show (4 + 0 : Nat) = 4 from rfl] at h
    exact h
  · have h := (c3_amended phredStd 25 10 "AAAAAAAA".toList "AAAAAA".toList "IIIIII".toList
      [(3, 'M')] 2 4 3 [(1, '0'), (2, '0'), (3, '0')] (by decide) (by decide)).2
    rw [show (4 + (2 - 1) : Nat) = 5 from rfl] at h
    rw [show calcAmbigReads 10 "AAAAAAAA".toList 5 2 = true from by decide] at h
    rw [if_pos rfl] at h
    exact h

/-- C4 (code_bug evidence): the reference check in `__next__` tests the
read object itself (not `read.rname`) for membership in the string-keyed
reference dict, so the test never succeeds: the iterator raises ValueError
for every nonempty read group, naming the first read, regardless of
whether its reference is loaded. -/
theorem c4_refcheck_always_raises (refs : RefSeqs) (r : AlignedRead)
    (rest : List AlignedRead) :
    nextRefCheck refs (r :: rest) =
      .error ("read " ++ r.qname ++ " aligned to " ++ r.rname ++
        " which is not in the reference fasta") := by
  have hc : refSeqsContains refs (.pyread r) = false := by
    induction refs with
    | nil => rfl
    | cons kv t ih =>
      show (pyEq (.pystr kv.1) (.pyread r) || refSeqsContains t (.pyread r)) = false
      rw [ih]
      rfl
  have hfind : List.find? (fun x => ! refSeqsContains refs (.pyread x)) (r :: rest)
      = some r := by
    simp only [List.find?]
    rw [hc]
    rfl
  unfold nextRefCheck
  rw [hfind]

/-- C5 (code_bug evidence): `get_percent_mutations` sums
`num_of_mutations[5:]` into the last bucket, skipping index 4 entirely.
For a histogram holding exactly one read with 4 mutations over "ACGT", the
code returns all-zero percentages, while the claim's bucketing (reads with
4 or more mutations in the final bucket) puts 100 percent there. -/
theorem c5_four_mutation_reads_dropped :
    mhC.num_of_mutations = [0, 0, 0, 0, 1] ∧
    mhC.num_aligned = 1 ∧
    mhC.get_percent_mutations = [some 0, some 0, some 0, some 0, some 0] ∧
    claimPercentMutations mhC = [some 0, some 0, some 0, some 0, some 100] :=
  ⟨by decide, by decide, by with_unfolding_all rfl, by with_unfolding_all rfl⟩

/-- C6 (code_bug evidence): for a histogram with no recorded reads over
"A", `informative_count[1] = 0` and `get_pop_avg` produces NaN (numpy's
`0.0 / 0.0`, modelled `none`), not the claimed 0: numpy float division
raises no ZeroDivisionError, so the source's `except` branch is dead for
this case. -/
theorem c6_pop_avg_nan_when_no_info :
    mhD.info_bases.getD 1 0 = 0 ∧
    mhD.get_pop_avg false = [none] ∧
    mhD.get_pop_avg true = [none] :=
  ⟨by decide, by rfl, by rfl⟩

/-- C7 (counterexample): a matched base whose quality score exactly equals
the cutoff is classified Ambiguous by the code (`> cutoff` comparison), not
by base comparison as the claim states: with the standard phred table,
':' scores exactly 25, and the matching one-base read gets `'?'` instead of
the claimed `'0'`. -/
theorem c7_counterexample :
    phredStd ':' = 25 ∧
    dget? (convertReadToBitVector phredStd 25 10 "A".toList readQualEdge) 1 = some '?' ∧
    some '?' ≠ some '0' :=
  ⟨by decide, by decide, by decide⟩

/-- C7 (amended): in a Match/Mismatch run, a base whose quality score is at
or below the cutoff is classified Ambiguous; only a score strictly above
the cutoff triggers the base comparison (equal bases give NoMutation,
unequal give the read base). -/
theorem c7_amended (phred : Char → Nat) (cutoff W : Nat)
    (refSeq readSeq qual : List Char) (rest : List (Nat × Char)) (L i j k : Nat) (bv : BV)
    (hk : k < L) (hrest : ∀ p ∈ rest, knownOp p.2 = true) :
    dget? (convertLoop phred cutoff W refSeq readSeq qual ((L, 'M') :: rest) i j bv)
        (i + k) =
      some (if phred (qual.getD (j + k) ' ') ≤ cutoff then '?'
        else if readSeq.getD (j + k) ' ' ≠ refSeq.getD (i + k - 1) ' '
          then readSeq.getD (j + k) ' ' else '0') := by
  rw [convertLoop_M,
    convertLoop_preserve phred cutoff W refSeq readSeq qual rest hrest
      (i + L) (j + L) _ (i + k) (by omega),
    dget?_mRun, if_pos (by omega)]
  have harg : j + (i + k - i) = j + k := by omega
  rw [harg]
  unfold mValue
  by_cases hq : phred (qual.getD (j + k) ' ') ≤ cutoff
  · rw [if_neg (by omega), if_pos hq]
  · rw [if_pos (by omega), if_neg hq]

/-- C7 (witness): the amended rule at the boundary input: quality ':' = the
cutoff 25 on a matching base yields Ambiguous. -/
theorem c7_amended_witness :
    phredStd ':' = 25 ∧
    dget? (convertLoop phredStd 25 10 "A".toList "A".toList ":".toList [(1, 'M')] 1 0 []) 1
      = some '?' := by
  constructor
  · decide
  · have h := c7_amended phredStd 25 10 "A".toList "A".toList ":".toList [] 1 1 0 0 []
      (by decide) (by decide)
    simp only [Nat.add_zero] at h
    rw [h]
    decide

/-- C8 (counterexample): the CIGAR decoder never fails: on "3Mx4D", which
does not tokenize entirely into length+operation pairs, `re.findall`
silently drops the 'x' and returns the two tokens around it, contradicting
the claimed FormatError. -/
theorem c8_counterexample :
    parseCigarTokens "3Mx4D" = [(['3'], 'M'), (['4'], 'D')] ∧
    piecesChars [.inr (['3'], 'M'), .inl 'x', .inr (['4'], 'D')] = "3Mx4D".toList :=
  ⟨by decide, by decide⟩

/-- C8 (amended): the decoder is total and silently drops unparseable
portions: every input string decomposes into an ordered list of pieces --
matched tokens (a nonempty digit run followed by an uppercase letter) and
individually dropped characters -- whose tokens are exactly the decoder's
output; no input reports an error. -/
theorem c8_amended (s : String) :
    ∃ ps, piecesChars ps = s.toList ∧ piecesTokens ps = parseCigarTokens s ∧
      ∀ t ∈ piecesTokens ps, t.1 ≠ [] ∧ (∀ c ∈ t.1, isDigitChar c = true) ∧
        isUpperChar t.2 = true := by
  have h := scanCigar_decomposition s.toList [] (by intro c hc; simp at hc)
  simpa [parseCigarTokens] using h

/-- C9 (counterexample): a trailing soft-clip run does introduce positions
greater than the reference length: the read with CIGAR `8M2S` aligned at
position 1 of the eight-base reference "ACGTACGT" produces a bit vector
containing position 9 (marked Missing), outside `[1, 8]`. -/
theorem c9_counterexample :
    "ACGTACGT".toList.length = 8 ∧
    dget? (convertReadToBitVector phredStd 25 10 "ACGTACGT".toList readTrailClip) 9
      = some '*' :=
  ⟨by decide, by decide⟩

/-- C9 (amended): the bit vector maps at most one symbol to each covered
position (its key list is duplicate-free), and every position lies in
`[read.pos, read.pos + refSpan(cigar) - 1]`, where a trailing soft-clip
counts toward the consumed span -- hence positions beyond the reference
length can appear (they are ignored by the downstream consumers, which
only scan `[start, end]`). -/
theorem c9_amended (phred : Char → Nat) (cutoff W : Nat) (refSeq : List Char)
    (read : AlignedRead) (k : Nat)
    (hk : dmem (convertReadToBitVector phred cutoff W refSeq read) k = true) :
    (read.pos ≤ k ∧ k < read.pos + refSpan (readOps read)) ∧
    (dkeys (convertReadToBitVector phred cutoff W refSeq read)).Nodup := by
  constructor
  · have h := dmem_convertLoop phred cutoff W refSeq read.seq read.qual (readOps read)
      read.pos 0 [] k hk
    rcases h with h | h
    · simp [dmem] at h
    · exact h
  · exact nodup_dkeys_convertLoop phred cutoff W refSeq read.seq read.qual (readOps read)
      read.pos 0 [] (by simp [dkeys])

/-- C9 (witness): the trailing-soft-clip read: position 9 is covered and
lies within the consumed span bound, and the key list is duplicate-free. -/
theorem c9_amended_witness :
    dmem (convertReadToBitVector phredStd 25 10 "ACGTACGT".toList readTrailClip) 9 = true ∧
    ((readTrailClip.pos ≤ 9 ∧
        9 < readTrailClip.pos + refSpan (readOps readTrailClip)) ∧
      (dkeys (convertReadToBitVector phredStd 25 10 "ACGTACGT".toList readTrailClip)).Nodup) :=
  ⟨by decide, c9_amended phredStd 25 10 "ACGTACGT".toList readTrailClip 9 (by decide)⟩

/-- C10: when both mates' bit vectors contain only valid symbols
('0', '1', '?', '*', or a base) and, as Python dicts, have duplicate-free
keys, the pair merger resolves every disagreeing position by precedence
rules 1-5 and the final unhandled-combination fallback (keep mate 1's
value and warn) is never reached. -/
theorem c10_fallback_unreachable (bv1 bv2 : BV)
    (h1 : ∀ p ∈ bv1, validBit p.2 = true) (h2 : ∀ p ∈ bv2, validBit p.2 = true)
    (hnd : (bv2.map Prod.fst).Nodup) :
    (mergePairedBitVectors bv1 bv2).2 = false :=
  mergeLoop_no_warn bv1 h1 bv2 bv1 h2 hnd (fun _ _ => rfl)

/-- C10 (witness): merging `{1: A}` with `{1: C, 2: 0}` (conflicting
mutation calls plus a fresh position) emits no warning. -/
theorem c10_fallback_witness :
    (mergePairedBitVectors [(1, 'A')] [(1, 'C'), (2, '0')]).2 = false :=
  c10_fallback_unreachable [(1, 'A')] [(1, 'C'), (2, '0')] (by decide) (by decide) (by decide)

end RnaMap
